import Mathlib

/-!
# A shallow embedding of PyCESim (src/PyCESim.py) with correctness theorems

PyCESim simulates Coulomb explosions: an initial-condition sampler turns an
equilibrium molecular geometry into an ensemble of displaced starting
configurations, and an N-body trajectory engine propagates each configuration
under classical electrostatics.

The embedding below translates the Python source into Lean definitions over ℚ.
Transcendental library routines (`np.exp`, `np.sin`, `np.cos`, `np.sqrt`,
`np.pi`) are threaded through as explicit function/value parameters named
`exp`, `sin`, `cos`, `sqrt`, `pi`; each theorem that needs an analytic fact
about them (for instance `sin x ^ 2 + cos x ^ 2 = 1`, or `sqrt x ^ 2 = x` for
a nonnegative argument) takes that fact as a hypothesis, so every statement is
a fact about the program for arbitrary implementations of those primitives
satisfying the stated identities.  numpy arrays are embedded as `List ℚ`
(reads via `getD`, writes via `List.set`, matching numpy's in-place indexed
assignment), and 3-vectors as `Fin 3 → ℚ`.  Randomness is externalized: each
random draw the Python code makes is supplied by an explicit stream parameter.
-/

namespace PyCESim

/-! ## Constants (PyCESim.py lines 13-27)

All constants in the source are decimal literals, hence exact rationals.
`hbar` is assigned twice in the source (lines 16 and 20); the second
assignment is the one in effect, and is the value used here.  The Coulomb
constant is named `k` in the source. -/

def u : ℚ := 1.660538921e-27

def e : ℚ := 1.60217663e-19

def k : ℚ := 8.9875517923e9

def hbar : ℚ := 1.054571817e-34

def kb : ℚ := 1.380649e-23

def cm_to_J : ℚ := 1.986e-23

def c_cm_s : ℚ := 2.997e10

def cm_to_hartree : ℚ := 1 / 219474.6

def u_to_amu : ℚ := 1 / 5.4857990943e-4

def bohr_to_angstrom : ℚ := 0.529177211

/-! ## Vectors -/

/-- A 3-component vector, as used for positions, displacements and forces. -/
abbrev Vec3 := Fin 3 → ℚ

/-- Squared Euclidean norm; `np.linalg.norm v` is `sqrt (normsq v)` for the
square-root routine `sqrt` threaded through the embedding. -/
def normsq (v : Vec3) : ℚ := ∑ c : Fin 3, v c ^ 2

/-- Embedding of `CoulombForce(r1, r2, q1, q2)` (PyCESim.py lines 161-167):
`k*q1*q2*r12*(1/r12_mag**3)` componentwise, where `r12 = r1-r2` and
`r12_mag = np.linalg.norm(r12)` is embedded as `sqrt (normsq r12)`. -/
def CoulombForce (sqrt : ℚ → ℚ) (r1 r2 : Vec3) (q1 q2 : ℚ) : Vec3 :=
  let r12 : Vec3 := fun c => r1 c - r2 c
  let r12_mag : ℚ := sqrt (normsq r12)
  fun c => k * q1 * q2 * r12 c * (1 / r12_mag ^ 3)

/-! ## Wigner function and vibrational populations -/

/-- The degree-`n` Laguerre polynomial, evaluated at `x`, via the standard
three-term recurrence `(m+2)·L_{m+2}(x) = (2m+3-x)·L_{m+1}(x) - (m+1)·L_m(x)`.
This embeds the external routine `scipy.special.laguerre(n)` used by
`calc_W`. -/
def laguerre : ℕ → ℚ → ℚ
  | 0, _ => 1
  | 1, x => 1 - x
  | n + 2, x =>
      ((2 * (n : ℚ) + 3 - x) * laguerre (n + 1) x - ((n : ℚ) + 1) * laguerre n x) / ((n : ℚ) + 2)

/-- Embedding of `calc_W(P, Q, n)` (PyCESim.py lines 170-179), the unitless
Wigner function: for `n > 0`, `(-1)^n * Ln(rhosquare) * exp(-rhosquare/2)`
with `rhosquare = 2*(P**2 + Q**2)`; otherwise `exp(-Q**2)*exp(-P**2)`.
(The source's dead store `Ln = scipy.special.laguerre(0)` before the real
assignment has no effect and is dropped.) -/
def calc_W (exp : ℚ → ℚ) (P Q : ℚ) (n : ℕ) : ℚ :=
  if n > 0 then
    let rhosquare : ℚ := 2 * (P ^ 2 + Q ^ 2)
    (-1 : ℚ) ^ n * laguerre n rhosquare * exp (-rhosquare / 2)
  else
    exp (-Q ^ 2) * exp (-P ^ 2)

/-- The Wigner value exactly as the specification words it: for `n = 0`,
`W = exp(−Q²)·exp(−P²)`; for `n > 0`, `W = (−1)ⁿ·Lₙ(2(P²+Q²))·exp(−(P²+Q²))`.
Stated separately from `calc_W` so that the two can be compared. -/
def calc_W_spec (exp : ℚ → ℚ) (P Q : ℚ) (n : ℕ) : ℚ :=
  if n = 0 then exp (-Q ^ 2) * exp (-P ^ 2)
  else (-1 : ℚ) ^ n * laguerre n (2 * (P ^ 2 + Q ^ 2)) * exp (-(P ^ 2 + Q ^ 2))

/-- Embedding of `calc_canonical_partition(omega, T)` (lines 181-184):
`Z = exp(-(hbar*omega)/(2*kb*T)) / (1 - exp(-(hbar*omega)/(kb*T)))`. -/
def calc_canonical_partition (exp : ℚ → ℚ) (omega T : ℚ) : ℚ :=
  exp (-(hbar * omega) / (2 * kb * T)) / (1 - exp (-(hbar * omega) / (kb * T)))

/-- Embedding of `calc_vib_energy(n, omega)` (lines 186-189):
`En = hbar*omega*(n + 1/2)`. -/
def calc_vib_energy (n : ℕ) (omega : ℚ) : ℚ :=
  hbar * omega * ((n : ℚ) + 1 / 2)

/-- Embedding of `calc_Pn(omega_cm, T, n)` (lines 191-204): converts the
wavenumber to an angular frequency `omega_Hz = omega_cm*c_cm_s*2*pi`, and for
`T > 0` returns `exp(-En/(kb*T))/Z`; for `T ≤ 0` it returns 1 when `n = 0`
and 0 otherwise. -/
def calc_Pn (exp : ℚ → ℚ) (pi : ℚ) (omega_cm T : ℚ) (n : ℕ) : ℚ :=
  let omega_Hz : ℚ := omega_cm * c_cm_s * 2 * pi
  let Z : ℚ := calc_canonical_partition exp omega_Hz T
  let En : ℚ := calc_vib_energy n omega_Hz
  if T > 0 then exp (-En / (kb * T)) / Z
  else if n = 0 then 1 else 0

/-- Embedding of the level-population table built by `generate_pool` at
`T > 0` (lines 376-381): `Pn_arr[i,n] = calc_Pn(omegas[i], T, n)`, one row per
mode (`for i, omega in enumerate(self.eq_geometry.omegas)`), one column per
level `n < nmax`. -/
def Pn_arr (exp : ℚ → ℚ) (pi : ℚ) (omegas : List ℚ) (T : ℚ) (i n : ℕ) : ℚ :=
  calc_Pn exp pi (omegas.getD i 0) T n

/-- The loop variable `mode_counter` of `generate_pool`'s wigner branch: it is
assigned 0 at line 410, before the per-mode loop, and is never incremented or
otherwise written anywhere in the loop body, so every iteration of the loop
reads it as 0. -/
def mode_counter : ℕ := 0

/-- The renormalized level probabilities actually used when drawing mode `m`'s
vibrational level at `T > 0` (lines 419-422): `Pn = self.Pn_arr[mode_counter,:]`
followed by `Pn_scaled = Pn/np.sum(Pn)` over the truncated level set
`{0, …, nmax-1}`.  The row index the source uses is `mode_counter`, not the
position of mode `m` in the loop; faithfully to that, the parameter `m` is
unused — the row read does not depend on which mode the loop is processing. -/
def Pn_scaled_used (exp : ℚ → ℚ) (pi : ℚ) (omegas : List ℚ) (T : ℚ) (nmax : ℕ)
    (_m j : ℕ) : ℚ :=
  Pn_arr exp pi omegas T mode_counter j /
    ∑ n in Finset.range nmax, Pn_arr exp pi omegas T mode_counter n

/-- The vibrational-level selection in `generate_pool` (lines 418-424): for
`T > 0` the level is the outcome `draw` of `np.random.choice(n_list, p=Pn_scaled)`
(externalized), and otherwise `n = 0`. -/
def select_n (T : ℚ) (draw : ℕ) : ℕ :=
  if T > 0 then draw else 0

/-! ## Geometry (PyCESim.py lines 208-291)

The class attributes that matter to the claims: `atom_coords` (one `Vec3` per
atom, Angstrom), `atom_masses` (amu), `nmodes` (each mode is one displacement
`Vec3` per atom) and `omegas` (wavenumbers).  The optionally-set attributes
`atom_nos`, `atom_labels`, `elements`, `geom_label` play no role in any claim
and are omitted. -/

structure geometry where
  atom_coords : List Vec3
  atom_masses : List ℚ
  nmodes : List (List Vec3)
  omegas : List ℚ

/-- `self.natoms = len(atom_coords)` (line 214). -/
def geometry.natoms (g : geometry) : ℕ := g.atom_coords.length

/-- Embedding of `find_com` (lines 229-236): the loop runs over
`zip(atom_coords, atom_masses)`, accumulating `mass_product += r*mass` and
`mass_sum += mass`, and returns `mass_product/mass_sum` componentwise. -/
def geometry.find_com (g : geometry) : Vec3 :=
  let pairs := g.atom_coords.zip g.atom_masses
  let mass_product : Vec3 := fun c => (pairs.map (fun p => p.1 c * p.2)).sum
  let mass_sum : ℚ := (pairs.map (fun p => p.2)).sum
  fun c => mass_product c / mass_sum

/-- Embedding of `com_geometry` (lines 238-241): `atom_coords - com`. -/
def geometry.atom_coords_com (g : geometry) : List Vec3 :=
  g.atom_coords.map (fun r => fun c => r c - g.find_com c)

/-- The mass-weighted norm computed for one raw mode by `check_normal_modes`
(lines 251-257): `norm = sqrt(Σ_{i < natoms} Σ_{j < 3} mode[i,j]² * atom_masses[i])`. -/
def mode_norm (sqrt : ℚ → ℚ) (g : geometry) (mode : List Vec3) : ℚ :=
  sqrt (∑ i in Finset.range g.natoms, ∑ c : Fin 3, (mode.getD i 0) c ^ 2 * g.atom_masses.getD i 0)

/-- The reweighting of one raw mode in `check_normal_modes` (lines 260-263):
`mode_new[i,:] = mode[i,:]*np.sqrt(atom_masses[i])/norm` for `i < natoms`
(rows are filled in from `np.zeros_like(mode)`). -/
def reweight_mode (sqrt : ℚ → ℚ) (g : geometry) (mode : List Vec3) : List Vec3 :=
  let norm := mode_norm sqrt g mode
  (List.range g.natoms).map (fun i => fun c => (mode.getD i 0) c * sqrt (g.atom_masses.getD i 0) / norm)

/-- Embedding of `geometry.check_normal_modes` (lines 244-291).  The method
first reweights every raw mode (`nmodes2`), then runs the pairwise dot-product
loop `for i, mode1 in enumerate(nmodes2): for j, mode2 in enumerate(nmodes2):
for k in range(n_atoms): ...`.  The name `n_atoms` is not defined anywhere at
module scope in PyCESim.py (the attribute is `self.natoms`; the only `n_atoms`
bindings are locals of `CE_sim` methods), so Python raises `NameError` the
first time the inner `range(n_atoms)` is evaluated — that is, as soon as
`nmodes2` is nonempty.  If `nmodes2` is empty the dot-product loops are
skipped and `np.max(results)` on the empty 0×0 `results` array raises
`ValueError` instead (line 281/285).  Either way the method never reaches the
final assignment `self.nmodes_weighted = nmodes2` (line 291); the embedding
returns the error, carrying no result. -/
def check_normal_modes (sqrt : ℚ → ℚ) (g : geometry) : Except String (List (List Vec3)) :=
  let nmodes2 := g.nmodes.map (reweight_mode sqrt g)
  if nmodes2.isEmpty then
    Except.error "ValueError: zero-size array to reduction operation"
  else
    Except.error "NameError: name n_atoms is not defined"

/-! ## Charge channels and the starting-condition sampler (lines 294-457) -/

/-- Embedding of `ce_channel` (lines 294-301): a charge distribution (in
elementary-charge units) with a selection probability and a label. -/
structure ce_channel where
  charges : List ℚ
  p : ℚ
  label : String

/-- The sampler state.  `__init__` (lines 307-309) sets `eq_geometry` and
`multi_channel = False`; the channel fields and the `samp_*` output lists are
created by `set_channel_list` and `generate_pool` respectively, and are
modelled as empty until then. -/
structure starting_conditions where
  eq_geometry : geometry
  multi_channel : Bool
  channel_list : List ce_channel
  channel_p_list : List ℚ
  samp_y0_list : List (List ℚ)
  samp_charges_list : List (List ℚ)
  samp_masses_list : List (List ℚ)
  samp_channel_list : List ℕ

/-- Embedding of `starting_conditions.__init__(eq_geometry)`. -/
def starting_conditions.init (g : geometry) : starting_conditions :=
  ⟨g, false, [], [], [], [], [], []⟩

/-- Embedding of `set_channel_list` (lines 311-321): if the channel
probabilities differ from 1 by more than 0.001 a warning is printed and
nothing is stored; otherwise the channel list and probabilities are stored and
`multi_channel` is set.  The returned Bool is `true` exactly when the warning
was printed. -/
def set_channel_list (s : starting_conditions) (channel_list : List ce_channel) :
    starting_conditions × Bool :=
  let channel_p_list := channel_list.map ce_channel.p
  let sum_p := channel_p_list.sum
  if |sum_p - 1| > 0.001 then
    (s, true)
  else
    (⟨s.eq_geometry, true, channel_list, channel_p_list,
      s.samp_y0_list, s.samp_charges_list, s.samp_masses_list, s.samp_channel_list⟩, false)

/-! ## Random rotations (PyCESim.py lines 89-158) -/

/-- Embedding of `RandRotationMatrix(deflection, randnums)` (lines 112-158):
with `randnums = (theta0, phi0, z0)`, set `theta = theta0*2*deflection*pi`,
`phi = phi0*2*pi`, `z = z0*2*deflection`, `r = sqrt(z)`,
`V = (sin(phi)*r, cos(phi)*r, sqrt(2-z))`,
`R = [[ct, st, 0], [-st, ct, 0], [0, 0, 1]]`, and return
`(np.outer(V, V) - np.eye(3)).dot(R)`. -/
def RandRotationMatrix (sin cos sqrt : ℚ → ℚ) (pi : ℚ) (deflection theta0 phi0 z0 : ℚ) :
    Matrix (Fin 3) (Fin 3) ℚ :=
  let theta : ℚ := theta0 * 2 * deflection * pi
  let phi : ℚ := phi0 * 2 * pi
  let z : ℚ := z0 * 2 * deflection
  let r : ℚ := sqrt z
  let V : Fin 3 → ℚ := ![sin phi * r, cos phi * r, sqrt (2 - z)]
  let st : ℚ := sin theta
  let ct : ℚ := cos theta
  let R : Matrix (Fin 3) (Fin 3) ℚ := Matrix.of ![![ct, st, 0], ![-st, ct, 0], ![0, 0, 1]]
  (Matrix.of (fun i j => V i * V j) - 1) * R

/-- Embedding of `random_rotation(r_list)` (lines 89-109): one matrix
`rm = RandRotationMatrix()` is generated (here supplied as the parameter `rm`,
its random inputs having been drawn outside), and every vector of the list is
mapped through `np.dot(rm, r)`. -/
def random_rotation (rm : Matrix (Fin 3) (Fin 3) ℚ) (r_list : List Vec3) : List Vec3 :=
  r_list.map (fun r => rm.mulVec r)

/-! ## generate_pool, gaussian method (lines 330-457)

Randomness is externalized: `z i n` is the triple of standard-normal draws
used for atom `n` of trajectory `i` (so `np.random.normal(loc=0, scale=s)`
returns `s * z i n c`), `rot i` is the rotation matrix drawn for trajectory
`i`, and `chdraw i` is the index drawn by `np.random.choice(channel_list, p=…)`.
The per-iteration `append`s to the four `samp_*` lists are embedded as maps
over the trajectory index `i < n_geoms`.  The `wigner` branch of the method
cannot be given function semantics directly because its rejection loop need
not terminate; that loop is embedded separately as `wigner_sample_loop`. -/

/-- The per-atom blurred positions of one gaussian-method trajectory
(lines 397-407): `rs = (atom_coords_com[n] + normal(0, blur_sigma)) * 1e-10`
componentwise, where `blur_sigma` is `sigma[0]` for a 1-element sigma array
and `sigma[n]` for an `natoms`-element one (any other shape leaves
`blur_sigma` unbound in the source — undefined behaviour; embedded as 0,
unused by any theorem below). -/
def gaussian_r_list (g : geometry) (sigma : List ℚ) (z : ℕ → Vec3) : List Vec3 :=
  (List.range g.natoms).map (fun n => fun c =>
    let blur_sigma : ℚ :=
      if sigma.length = 1 then sigma.getD 0 0
      else if sigma.length = g.natoms then sigma.getD n 0
      else 0
    ((g.atom_coords_com.getD n 0) c + blur_sigma * z n c) * 1e-10)

/-- The per-trajectory charge assignment (lines 387-393): the drawn channel's
charges times `e` in multi-channel mode, else `np.ones(natoms)*e`. -/
def pool_charges (s : starting_conditions) (chdraw : ℕ) : List ℚ :=
  if s.multi_channel then
    ((s.channel_list.getD chdraw ⟨[], 0, ""⟩).charges).map (fun q => q * e)
  else
    (List.replicate s.eq_geometry.natoms (1 : ℚ)).map (fun q => q * e)

/-- The final packing of one trajectory's state vector (lines 383-384 and
450-453): `y0 = np.zeros(natoms*6)`, then `y0[3n+c] = r_list_rot[n][c]` for
each atom `n`; the velocity half is never written. -/
def build_y0 (natoms : ℕ) (r_list_rot : List Vec3) : List ℚ :=
  (List.range natoms).foldl
    (fun y0 n =>
      ((y0.set (3 * n) ((r_list_rot.getD n 0) 0)).set
        (3 * n + 1) ((r_list_rot.getD n 0) 1)).set
        (3 * n + 2) ((r_list_rot.getD n 0) 2))
    (List.replicate (natoms * 6) 0)

/-- One gaussian-method trajectory of `generate_pool`: the y0 vector, the
charge vector and the mass vector appended for trajectory `i`
(lines 383-457). -/
def pool_traj (s : starting_conditions) (random_rotate : Bool) (sigma : ℚ)
    (z : ℕ → Vec3) (rot : Matrix (Fin 3) (Fin 3) ℚ) (chdraw : ℕ) :
    List ℚ × List ℚ × List ℚ :=
  let g := s.eq_geometry
  let charges := pool_charges s chdraw
  let masses := g.atom_masses.map (fun m => m * u)
  let r_list := gaussian_r_list g [sigma] z
  let r_list_rot := if random_rotate then random_rotation rot r_list else r_list
  (build_y0 g.natoms r_list_rot, charges, masses)

/-- Embedding of `generate_pool(n_geoms, method='gaussian', …)`
(lines 330-457): the four `samp_*` lists are reset (lines 360-363) and one
entry is appended to `samp_y0_list`, `samp_charges_list` and
`samp_masses_list` per trajectory (lines 455-457).  No statement in the loop
ever appends to `samp_channel_list`, so it remains the empty list it was
reset to. -/
def generate_pool (s : starting_conditions) (n_geoms : ℕ) (random_rotate : Bool)
    (sigma : ℚ) (z : ℕ → ℕ → Vec3) (rot : ℕ → Matrix (Fin 3) (Fin 3) ℚ)
    (chdraw : ℕ → ℕ) : starting_conditions :=
  ⟨s.eq_geometry, s.multi_channel, s.channel_list, s.channel_p_list,
   (List.range n_geoms).map (fun i => (pool_traj s random_rotate sigma (z i) (rot i) (chdraw i)).1),
   (List.range n_geoms).map (fun i => (pool_traj s random_rotate sigma (z i) (rot i) (chdraw i)).2.1),
   (List.range n_geoms).map (fun i => (pool_traj s random_rotate sigma (z i) (rot i) (chdraw i)).2.2),
   []⟩

/-! ## The Wigner rejection-sampling loop (lines 425-438) -/

/-- Embedding of the `while not wigner_sampled` loop for one mode with level
`n` (lines 425-438), with an explicit fuel bound: `draws i = (Q, P, t)` is the
triple drawn on attempt `i` (`random_Q`, `random_P` and the acceptance
threshold `np.random.uniform(0,1)`, in the order the source draws them).  The
attempt is accepted when `calc_W(P, Q, n) > t`, and the accepted `Q` is
returned; `none` means the loop was still running after `fuel` attempts.  The
source loop has no such bound: it simply runs forever on a draw stream that
never satisfies the acceptance test. -/
def wigner_sample_loop (exp : ℚ → ℚ) (n : ℕ) (draws : ℕ → ℚ × ℚ × ℚ) : ℕ → Option ℚ
  | 0 => none
  | fuel + 1 =>
    let Q := (draws 0).1
    let P := (draws 0).2.1
    let t := (draws 0).2.2
    if calc_W exp P Q n > t then some Q
    else wigner_sample_loop exp n (fun i => draws (i + 1)) fuel

/-! ## The trajectory engine (lines 460-575) -/

/-- The timebin-related state of `CE_sim`: `set_timebins` (lines 480-485)
stores the evaluation-time sequence together with `np.min`, `np.max` and its
length.  (`np.min`/`np.max` fault on an empty array; they are embedded as the
optional minimum/maximum.)  The `starting_conditions` member and the
simulation-output state of `CE_sim` are not needed by any claim and are
omitted; `NewtonEquations` is embedded below with the charge and mass vectors
it reads from the sampler passed explicitly. -/
structure CE_sim where
  timebins : List ℚ
  tmin : Option ℚ
  tmax : Option ℚ
  n_t_steps : ℕ

/-- Embedding of `CE_sim.set_timebins` (lines 480-485). -/
def set_timebins (timebins : List ℚ) : CE_sim :=
  ⟨timebins, timebins.min?, timebins.max?, timebins.length⟩

/-- Embedding of `np.linspace(a, b, n)`: `n` evenly spaced samples from `a`
to `b` inclusive, `a + i*(b-a)/(n-1)` for `i < n`.  For `n = 1` numpy returns
`[a]`, which the formula also yields here because `i = 0` makes the dividend
zero (ℚ division by zero being zero). -/
def linspace (a b : ℚ) (n : ℕ) : List ℚ :=
  (List.range n).map (fun (i : ℕ) => a + (i : ℚ) * (b - a) / ((n : ℚ) - 1))

/-- Embedding of `CE_sim.make_timebins(t_range_list, n_step_list)`
(lines 465-478): one linspace per zipped (range, count) pair, concatenated,
then stored through `set_timebins`. -/
def make_timebins (t_range_list : List (ℚ × ℚ)) (n_step_list : List ℕ) : CE_sim :=
  let tsteps_list := (t_range_list.zip n_step_list).map (fun p => linspace p.1.1 p.1.2 p.2)
  set_timebins tsteps_list.flatten

/-- The position 3-vector of atom `n` read out of a state vector `y`
(lines 569-570): `r = [y[3n], y[3n+1], y[3n+2]]`. -/
def pos_of (y : List ℚ) (n : ℕ) : Vec3 :=
  fun c => y.getD (3 * n + (c : ℕ)) 0

/-- The force accumulation for atom `n` in `NewtonEquations` (lines 566-571):
`force = 0`, then `force += CoulombForce(r_n, r_j, q_n, q_j)` for every
`j ≠ n` below `n_atoms`. -/
def coulomb_sum (sqrt : ℚ → ℚ) (charges y : List ℚ) (n_atoms n : ℕ) : Vec3 :=
  (List.range n_atoms).foldl
    (fun f j =>
      if j ≠ n then
        f + CoulombForce sqrt (pos_of y n) (pos_of y j) (charges.getD n 0) (charges.getD j 0)
      else f)
    0

/-- The body of the outer `for n in range(n_atoms)` loop of `NewtonEquations`
(lines 559-573): copy the three velocity components of atom `n` into the
first half of `dydt`, then write `force/masses[n]` into its acceleration
slots. -/
def newtonStep (sqrt : ℚ → ℚ) (charges masses y : List ℚ) (n_atoms : ℕ)
    (dydt : List ℚ) (n : ℕ) : List ℚ :=
  let d1 := ((dydt.set (3 * n) (y.getD (3 * n_atoms + 3 * n) 0)).set
    (3 * n + 1) (y.getD (3 * n_atoms + 3 * n + 1) 0)).set
    (3 * n + 2) (y.getD (3 * n_atoms + 3 * n + 2) 0)
  let force := coulomb_sum sqrt charges y n_atoms n
  ((d1.set (3 * n_atoms + 3 * n) (force 0 / masses.getD n 0)).set
    (3 * n_atoms + 3 * n + 1) (force 1 / masses.getD n 0)).set
    (3 * n_atoms + 3 * n + 2) (force 2 / masses.getD n 0)

/-- Embedding of `CE_sim.NewtonEquations(t, y)` (lines 539-575): with
`n_atoms = len(y)//6`, start from `dydt = np.zeros(np.shape(y))` and run the
per-atom loop.  The charge and mass arrays the method reads from
`starting_conditions` via `sim_counter` are passed explicitly.  The time
argument `t` is unused by the source body and omitted. -/
def NewtonEquations (sqrt : ℚ → ℚ) (charges masses y : List ℚ) : List ℚ :=
  let n_atoms := y.length / 6
  (List.range n_atoms).foldl (newtonStep sqrt charges masses y n_atoms)
    (List.replicate y.length 0)

/-! ## Helper lemmas about list reads and writes -/

theorem getD_set_ne (l : List ℚ) {i j : ℕ} (a : ℚ) (h : i ≠ j) :
    (l.set i a).getD j 0 = l.getD j 0 := by
  simp [List.getD_eq_getElem?_getD, List.getElem?_set_ne h]

theorem getD_set_self (l : List ℚ) {i : ℕ} (a : ℚ) (h : i < l.length) :
    (l.set i a).getD i 0 = a := by
  simp [List.getD_eq_getElem?_getD, List.getElem?_set_self h]

theorem getD_map_range {α : Type} (f : ℕ → α) (d : α) {i n : ℕ} (h : i < n) :
    ((List.range n).map f).getD i d = f i := by
  simp [List.getD_eq_getElem?_getD, List.getElem?_map, List.getElem?_range h]

theorem getD_replicate_zero {i n : ℕ} : (List.replicate n (0 : ℚ)).getD i 0 = 0 := by
  rcases Nat.lt_or_ge i n with h | h
  · simp [List.getD_eq_getElem?_getD, List.getElem?_replicate, h]
  · simp [List.getD_eq_getElem?_getD, List.getElem?_replicate, Nat.not_lt.mpr h]

/-! ## Claim C1: check_normal_modes raises NameError -/

/-- C1: the claim says `check_normal_modes` computes the mass-weighted norms,
reweights the modes, builds the pairwise dot-product matrix, reports the
residual verdict, and stores the reweighted modes regardless.  The code cannot
do this: its dot-product loop iterates `for k in range(n_atoms)` and `n_atoms`
is an undefined name at that point (the attribute is `self.natoms`), so for
every geometry that actually carries raw normal modes the method raises
`NameError` before `self.nmodes_weighted` is ever assigned.  This theorem
evaluates the embedded method on an arbitrary such geometry. -/
theorem check_normal_modes_raises (sqrt : ℚ → ℚ) (g : geometry) (h : g.nmodes ≠ []) :
    check_normal_modes sqrt g = Except.error "NameError: name n_atoms is not defined" := by
  unfold check_normal_modes
  rw [if_neg]
  simp [List.isEmpty_iff, h]

/-- Witness for `check_normal_modes_raises`: a one-atom geometry of mass 1 amu
carrying the single raw mode (1,0,0); constructing it (which is what calls
`check_normal_modes`) faults with the NameError. -/
theorem check_normal_modes_raises_witness :
    (geometry.mk [![0, 0, 0]] [1] [[![1, 0, 0]]] [1000]).nmodes ≠ [] ∧
      check_normal_modes id (geometry.mk [![0, 0, 0]] [1] [[![1, 0, 0]]] [1000]) =
        Except.error "NameError: name n_atoms is not defined" :=
  ⟨by simp, check_normal_modes_raises id _ (by simp)⟩

/-! ## Claim C4: the unitless Wigner function -/

/-- C4: for every `P`, `Q` and `n`, `calc_W` returns `exp(−Q²)·exp(−P²)` when
`n = 0` and `(−1)ⁿ·Lₙ(2(P²+Q²))·exp(−(P²+Q²))` when `n > 0`, where `Lₙ` is the
degree-`n` Laguerre polynomial — that is, the code agrees with the
specification's formula (`calc_W_spec`) for every implementation of `exp`. -/
theorem calc_W_matches_spec (exp : ℚ → ℚ) (P Q : ℚ) (n : ℕ) :
    calc_W exp P Q n = calc_W_spec exp P Q n := by
  unfold calc_W calc_W_spec
  rcases Nat.eq_zero_or_pos n with h | h
  · subst h; simp
  · rw [if_pos h, if_neg (Nat.pos_iff_ne_zero.mp h)]
    have harg : -(2 * (P ^ 2 + Q ^ 2)) / 2 = -(P ^ 2 + Q ^ 2) := by ring
    show (-1 : ℚ) ^ n * laguerre n (2 * (P ^ 2 + Q ^ 2)) * exp (-(2 * (P ^ 2 + Q ^ 2)) / 2) = _
    rw [harg]

/-! ## Claim C7: vibrational-level selection uses a frozen mode index -/

/-- C7: the claim's `T = 0` half holds — the selected vibrational quantum
number is always 0 — but its `T > 0` half does not: the claim says each
mode's level is drawn with Boltzmann probabilities computed from that mode's
own angular frequency, while in the source `mode_counter` is assigned 0 at
line 410 and never incremented, so line 420 reads `Pn_arr[mode_counter,:]`
= `Pn_arr[0,:]` on every iteration of the per-mode loop.  This theorem
evaluates the embedded code: for EVERY mode `m`, the renormalized
probabilities actually used are those computed from the FIRST mode's
frequency `omegas[0]` (second conjunct); and at the failing input
`omegas = [1000, 2000]`, `T = 300`, `nmax = 2` — with the concrete
exponential stand-in `exp = (fun x => 1 + x)` and `pi = 1/(2·c_cm_s)` — the
distribution used for the second mode (`m = 1`) genuinely differs from the
claim's formula built from that mode's own frequency `omegas[1] = 2000`
(third conjunct). -/
theorem vibrational_selection_frozen_row (exp : ℚ → ℚ) (pi : ℚ) (omegas : List ℚ)
    (T : ℚ) (nmax : ℕ) (draw m j : ℕ) :
    (T = 0 → select_n T draw = 0) ∧
    (Pn_scaled_used exp pi omegas T nmax m j =
      calc_Pn exp pi (omegas.getD 0 0) T j /
        ∑ n in Finset.range nmax, calc_Pn exp pi (omegas.getD 0 0) T n) ∧
    (Pn_scaled_used (fun x => 1 + x) (1 / (2 * c_cm_s)) [1000, 2000] 300 2 1 0 ≠
      calc_Pn (fun x => 1 + x) (1 / (2 * c_cm_s)) (([1000, 2000] : List ℚ).getD 1 0) 300 0 /
        ∑ n in Finset.range 2,
          calc_Pn (fun x => 1 + x) (1 / (2 * c_cm_s)) (([1000, 2000] : List ℚ).getD 1 0) 300 n) := by
  refine ⟨?_, rfl, ?_⟩
  · intro hT
    unfold select_n
    rw [if_neg]
    rw [hT]
    exact lt_irrefl 0
  · have h300 : (300 : ℚ) > 0 := by norm_num
    simp only [Pn_scaled_used, Pn_arr, mode_counter, calc_Pn, calc_canonical_partition,
      calc_vib_energy, Finset.sum_range_succ, Finset.sum_range_zero, List.getD_cons_zero,
      List.getD_cons_succ, if_pos h300]
    norm_num [hbar, kb, c_cm_s]

/-- Witness for `vibrational_selection_frozen_row`, applying the `T = 0` part
at `T = 0, draw = 7` and the frozen-row part at mode `m = 1` of a two-mode
list, where the probabilities used are those of `omegas[0] = 1000`. -/
theorem vibrational_selection_frozen_row_witness :
    select_n 0 7 = 0 ∧
      Pn_scaled_used (fun _ => 1) 3 [1000, 2000] 1 5 1 0 =
        calc_Pn (fun _ => 1) 3 (([1000, 2000] : List ℚ).getD 0 0) 1 0 /
          ∑ n in Finset.range 5, calc_Pn (fun _ => 1) 3 (([1000, 2000] : List ℚ).getD 0 0) 1 n :=
  ⟨(vibrational_selection_frozen_row (fun _ => 1) 3 [] 0 5 7 0 0).1 rfl,
   (vibrational_selection_frozen_row (fun _ => 1) 3 [1000, 2000] 1 5 7 1 0).2.1⟩

/-! ## Claim C10: the rejection-sampling loop has executions of unbounded length -/

/-- C10: the Wigner rejection-sampling loop imposes no cap on the number of
attempts.  With `wigner_sample_max = 3` and level `n = 0` (the `T = 0` case),
any draw stream that always returns `Q = P = 3` with threshold `t = 1/2` — a
stream of draws each of which lies inside the sampling box `[−3,3]` and the
threshold range `[0,1)` — is rejected forever, provided only that
`exp(−3²)·exp(−3²) ≤ 1/2` (amply true of the real exponential, whose value
there is about 1.5·10⁻⁸): the loop is still running after `fuel` attempts,
for every `fuel`. -/
theorem wigner_loop_unbounded (exp : ℚ → ℚ)
    (hexp : exp (-(3 : ℚ) ^ 2) * exp (-(3 : ℚ) ^ 2) ≤ 1 / 2) :
    ∃ draws : ℕ → ℚ × ℚ × ℚ,
      (∀ i, |(draws i).1| ≤ 3 ∧ |(draws i).2.1| ≤ 3 ∧
        0 ≤ (draws i).2.2 ∧ (draws i).2.2 < 1) ∧
      ∀ fuel, wigner_sample_loop exp 0 draws fuel = none := by
  refine ⟨fun _ => (3, 3, 1 / 2), fun i => by norm_num, ?_⟩
  intro fuel
  induction fuel with
  | zero => rfl
  | succ f ih =>
    rw [wigner_sample_loop]
    rw [if_neg]
    · exact ih
    · refine not_lt.mpr ?_
      simpa [calc_W] using hexp

/-- Witness for `wigner_loop_unbounded` at the concrete exponential stand-in
`exp = (fun _ => 1/3)`. -/
theorem wigner_loop_unbounded_witness :
    (fun (_ : ℚ) => (1 : ℚ) / 3) (-(3 : ℚ) ^ 2) * (fun (_ : ℚ) => (1 : ℚ) / 3) (-(3 : ℚ) ^ 2) ≤ 1 / 2 ∧
      ∃ draws : ℕ → ℚ × ℚ × ℚ,
        (∀ i, |(draws i).1| ≤ 3 ∧ |(draws i).2.1| ≤ 3 ∧
          0 ≤ (draws i).2.2 ∧ (draws i).2.2 < 1) ∧
        ∀ fuel, wigner_sample_loop (fun _ => 1 / 3) 0 draws fuel = none :=
  ⟨by norm_num, wigner_loop_unbounded (fun _ => 1 / 3) (by norm_num)⟩

/-! ## Claim C9: invalid channel probabilities fall back to unit charges -/

/-- C9: when the supplied channel probabilities differ from 1 by more than
1e-3, `set_channel_list` only reports a warning (no error is raised), leaves
the sampler state unchanged — `multi_channel` stays `false` and no channel
list is stored — and a subsequent `generate_pool` assigns every atom of every
trajectory the unit positive charge `e` in Coulombs. -/
theorem bad_channel_probs_fallback (g : geometry) (cl : List ce_channel)
    (n_geoms : ℕ) (random_rotate : Bool) (sigma : ℚ) (z : ℕ → ℕ → Vec3)
    (rot : ℕ → Matrix (Fin 3) (Fin 3) ℚ) (chdraw : ℕ → ℕ)
    (h : |(cl.map ce_channel.p).sum - 1| > 0.001) :
    set_channel_list (starting_conditions.init g) cl = (starting_conditions.init g, true) ∧
    (set_channel_list (starting_conditions.init g) cl).1.multi_channel = false ∧
    (set_channel_list (starting_conditions.init g) cl).1.channel_list = [] ∧
    ∀ i < n_geoms,
      (generate_pool (set_channel_list (starting_conditions.init g) cl).1 n_geoms
          random_rotate sigma z rot chdraw).samp_charges_list.getD i [] =
        List.replicate g.natoms e := by
  have hset : set_channel_list (starting_conditions.init g) cl =
      (starting_conditions.init g, true) := by
    unfold set_channel_list
    rw [if_pos h]
  refine ⟨hset, by rw [hset]; rfl, by rw [hset]; rfl, ?_⟩
  intro i hi
  rw [hset]
  show ((List.range n_geoms).map _).getD i [] = _
  rw [getD_map_range _ _ hi]
  show pool_charges (starting_conditions.init g) (chdraw i) = _
  unfold pool_charges
  rw [if_neg (by simp [starting_conditions.init])]
  rw [List.map_replicate, one_mul]
  rfl

/-- Witness for `bad_channel_probs_fallback`: a single channel of probability
1/2 (so the probabilities sum to 1/2, off by more than 1e-3) supplied to a
sampler over a one-atom geometry, followed by a one-trajectory pool. -/
theorem bad_channel_probs_fallback_witness :
    |(([ce_channel.mk [2] (1 / 2) "dication"].map ce_channel.p).sum - 1 : ℚ)| > 0.001 ∧
      set_channel_list (starting_conditions.init (geometry.mk [![0, 0, 0]] [1] [] []))
          [ce_channel.mk [2] (1 / 2) "dication"] =
        (starting_conditions.init (geometry.mk [![0, 0, 0]] [1] [] []), true) ∧
      ∀ i < 1,
        (generate_pool
            (set_channel_list (starting_conditions.init (geometry.mk [![0, 0, 0]] [1] [] []))
                [ce_channel.mk [2] (1 / 2) "dication"]).1 1 false (1 / 10)
            (fun _ _ => 0) (fun _ => 1) (fun _ => 0)).samp_charges_list.getD i [] =
          List.replicate (geometry.mk [![0, 0, 0]] [1] [] []).natoms e := by
  have h : |(([ce_channel.mk [2] (1 / 2) "dication"].map ce_channel.p).sum - 1 : ℚ)| > 0.001 := by
    norm_num [abs_of_nonpos]
  have main := bad_channel_probs_fallback (geometry.mk [![0, 0, 0]] [1] [] [])
    [ce_channel.mk [2] (1 / 2) "dication"] 1 false (1 / 10)
    (fun _ _ => 0) (fun _ => 1) (fun _ => 0) h
  exact ⟨h, main.1, main.2.2.2⟩

/-! ## Characterization of build_y0 -/

theorem build_y0_fold_length (rl : List Vec3) (l : List ℕ) (init : List ℚ) :
    (l.foldl
      (fun y0 n =>
        ((y0.set (3 * n) ((rl.getD n 0) 0)).set
          (3 * n + 1) ((rl.getD n 0) 1)).set
          (3 * n + 2) ((rl.getD n 0) 2)) init).length = init.length := by
  induction l generalizing init with
  | nil => rfl
  | cons a l ih => rw [List.foldl_cons, ih]; simp

theorem build_y0_length (natoms : ℕ) (rl : List Vec3) :
    (build_y0 natoms rl).length = natoms * 6 := by
  unfold build_y0
  rw [build_y0_fold_length]
  exact List.length_replicate _ _

theorem build_y0_fold_getD_ge (rl : List Vec3) (natoms : ℕ) (l : List ℕ)
    (init : List ℚ) (i : ℕ) (hi : 3 * natoms ≤ i) (hl : ∀ n ∈ l, n < natoms) :
    (l.foldl
      (fun y0 n =>
        ((y0.set (3 * n) ((rl.getD n 0) 0)).set
          (3 * n + 1) ((rl.getD n 0) 1)).set
          (3 * n + 2) ((rl.getD n 0) 2)) init).getD i 0 = init.getD i 0 := by
  induction l generalizing init with
  | nil => rfl
  | cons a l ih =>
    have ha : a < natoms := hl a (List.mem_cons_self _ _)
    rw [List.foldl_cons, ih _ (fun n hn => hl n (List.mem_cons_of_mem _ hn))]
    rw [getD_set_ne _ _ (by omega), getD_set_ne _ _ (by omega), getD_set_ne _ _ (by omega)]

/-- Entries of the velocity half (and beyond) of a built initial-state vector
are the zeros they were initialized to. -/
theorem build_y0_getD_ge (natoms : ℕ) (rl : List Vec3) (i : ℕ) (hi : 3 * natoms ≤ i) :
    (build_y0 natoms rl).getD i 0 = 0 := by
  unfold build_y0
  rw [build_y0_fold_getD_ge rl natoms _ _ i hi (fun n hn => List.mem_range.mp hn)]
  exact getD_replicate_zero

theorem build_y0_fold_getD_pos (rl : List Vec3) (natoms : ℕ) :
    ∀ M, M ≤ natoms → ∀ n, n < M → ∀ c : Fin 3,
    ((List.range M).foldl
      (fun y0 n =>
        ((y0.set (3 * n) ((rl.getD n 0) 0)).set
          (3 * n + 1) ((rl.getD n 0) 1)).set
          (3 * n + 2) ((rl.getD n 0) 2))
      (List.replicate (natoms * 6) 0)).getD (3 * n + (c : ℕ)) 0 = (rl.getD n 0) c := by
  intro M
  induction M with
  | zero => intro _ n hn; omega
  | succ M ih =>
    intro hM n hn c
    rw [List.range_succ, List.foldl_append, List.foldl_cons, List.foldl_nil]
    rcases Nat.lt_or_ge n M with hnM | hnM
    · have hc : (c : ℕ) < 3 := c.isLt
      rw [getD_set_ne _ _ (by omega), getD_set_ne _ _ (by omega), getD_set_ne _ _ (by omega)]
      exact ih (by omega) n hnM c
    · have hnM : n = M := by omega
      subst hnM
      have hlen :
          ((List.range n).foldl
            (fun y0 m =>
              ((y0.set (3 * m) ((rl.getD m 0) 0)).set
                (3 * m + 1) ((rl.getD m 0) 1)).set
                (3 * m + 2) ((rl.getD m 0) 2))
            (List.replicate (natoms * 6) 0)).length = natoms * 6 := by
        rw [build_y0_fold_length]
        exact List.length_replicate _ _
      fin_cases c
      · simp only [Fin.val_zero, Nat.add_zero]
        rw [getD_set_ne _ _ (by omega), getD_set_ne _ _ (by omega)]
        exact getD_set_self _ _ (by rw [hlen]; omega)
      · simp only [Fin.val_one]
        rw [getD_set_ne _ _ (by omega)]
        exact getD_set_self _ _ (by rw [List.length_set, hlen]; omega)
      · simp only [Fin.val_two]
        exact getD_set_self _ _ (by rw [List.length_set, List.length_set, hlen]; omega)

/-- The position entries of a built initial-state vector. -/
theorem build_y0_getD_pos (natoms : ℕ) (rl : List Vec3) (n : ℕ) (hn : n < natoms) (c : Fin 3) :
    (build_y0 natoms rl).getD (3 * n + (c : ℕ)) 0 = (rl.getD n 0) c := by
  unfold build_y0
  exact build_y0_fold_getD_pos rl natoms natoms le_rfl n hn c

/-! ## Claim C2, counterexample part: no channel index is ever recorded -/

/-- C2 counterexample: after `generate_pool(1)` on a fresh sampler over a
one-atom geometry, `samp_channel_list` does not hold one entry per trajectory
— the loop never appends to it, so it is empty. -/
theorem channel_index_not_recorded :
    (generate_pool (starting_conditions.init (geometry.mk [![0, 0, 0]] [1] [] [])) 1 false
        (1 / 10) (fun _ _ => 0) (fun _ => 1) (fun _ => 0)).samp_channel_list.length ≠ 1 := by
  simp [generate_pool]

/-! ## Claim C2, amended part: the shape of the generated ensemble -/

/-- C2 (amended): after `generate_pool(n_geoms)` (gaussian method) the sampler
holds exactly `n_geoms` entries in each of `samp_y0_list`,
`samp_charges_list` and `samp_masses_list`.  Each initial-state vector has
length `6·natoms`; its first half holds the (optionally rotated) sampled
positions and its entire velocity half is zero; each mass vector is the atomic
masses converted to kilograms, and in single-channel mode each charge vector
assigns every atom the unit charge `e` in Coulombs.  However, contrary to the
original claim, no per-trajectory channel index is recorded:
`samp_channel_list` is reset to `[]` and the generation loop never appends to
it. -/
theorem generate_pool_ensemble (s : starting_conditions) (n_geoms : ℕ)
    (random_rotate : Bool) (sigma : ℚ) (z : ℕ → ℕ → Vec3)
    (rot : ℕ → Matrix (Fin 3) (Fin 3) ℚ) (chdraw : ℕ → ℕ) :
    (generate_pool s n_geoms random_rotate sigma z rot chdraw).samp_y0_list.length = n_geoms ∧
    (generate_pool s n_geoms random_rotate sigma z rot chdraw).samp_charges_list.length = n_geoms ∧
    (generate_pool s n_geoms random_rotate sigma z rot chdraw).samp_masses_list.length = n_geoms ∧
    (∀ i < n_geoms,
      ((generate_pool s n_geoms random_rotate sigma z rot chdraw).samp_y0_list.getD i []).length =
          6 * s.eq_geometry.natoms ∧
      (∀ idx, 3 * s.eq_geometry.natoms ≤ idx →
        ((generate_pool s n_geoms random_rotate sigma z rot chdraw).samp_y0_list.getD i []).getD
          idx 0 = 0) ∧
      (∀ n < s.eq_geometry.natoms, ∀ c : Fin 3,
        ((generate_pool s n_geoms random_rotate sigma z rot chdraw).samp_y0_list.getD i []).getD
            (3 * n + (c : ℕ)) 0 =
          ((if random_rotate then
              random_rotation (rot i) (gaussian_r_list s.eq_geometry [sigma] (z i))
            else gaussian_r_list s.eq_geometry [sigma] (z i)).getD n 0) c) ∧
      ((generate_pool s n_geoms random_rotate sigma z rot chdraw).samp_masses_list.getD i [] =
        s.eq_geometry.atom_masses.map (fun m => m * u)) ∧
      (s.multi_channel = false →
        (generate_pool s n_geoms random_rotate sigma z rot chdraw).samp_charges_list.getD i [] =
          List.replicate s.eq_geometry.natoms e)) ∧
    (generate_pool s n_geoms random_rotate sigma z rot chdraw).samp_channel_list = [] := by
  refine ⟨by simp [generate_pool], by simp [generate_pool], by simp [generate_pool], ?_, rfl⟩
  intro i hi
  have hy0 : (generate_pool s n_geoms random_rotate sigma z rot chdraw).samp_y0_list.getD i [] =
      build_y0 s.eq_geometry.natoms
        (if random_rotate then
          random_rotation (rot i) (gaussian_r_list s.eq_geometry [sigma] (z i))
        else gaussian_r_list s.eq_geometry [sigma] (z i)) := by
    show ((List.range n_geoms).map _).getD i [] = _
    rw [getD_map_range _ _ hi]
    rfl
  refine ⟨?_, ?_, ?_, ?_, ?_⟩
  · rw [hy0, build_y0_length]; ring
  · intro idx hidx
    rw [hy0]
    exact build_y0_getD_ge _ _ idx hidx
  · intro n hn c
    rw [hy0]
    exact build_y0_getD_pos _ _ n hn c
  · show ((List.range n_geoms).map _).getD i [] = _
    rw [getD_map_range _ _ hi]
    rfl
  · intro hmc
    show ((List.range n_geoms).map _).getD i [] = _
    rw [getD_map_range _ _ hi]
    show pool_charges s (chdraw i) = _
    unfold pool_charges
    rw [if_neg (by rw [hmc]; exact Bool.false_ne_true)]
    rw [List.map_replicate, one_mul]

/-- Witness for `generate_pool_ensemble`: a two-trajectory gaussian pool over
a two-atom geometry, instantiating every bounded quantifier of the theorem's
conclusion at its first index. -/
theorem generate_pool_ensemble_witness :
    (generate_pool (starting_conditions.init (geometry.mk [![0, 0, 0], ![1, 0, 0]] [1, 2] [] []))
        2 true (1 / 10) (fun _ _ => 1) (fun _ => 1) (fun _ => 0)).samp_y0_list.length = 2 ∧
    ((generate_pool (starting_conditions.init (geometry.mk [![0, 0, 0], ![1, 0, 0]] [1, 2] [] []))
        2 true (1 / 10) (fun _ _ => 1) (fun _ => 1)
        (fun _ => 0)).samp_y0_list.getD 0 []).length = 12 ∧
    ((generate_pool (starting_conditions.init (geometry.mk [![0, 0, 0], ![1, 0, 0]] [1, 2] [] []))
        2 true (1 / 10) (fun _ _ => 1) (fun _ => 1)
        (fun _ => 0)).samp_y0_list.getD 0 []).getD 7 0 = 0 ∧
    (generate_pool (starting_conditions.init (geometry.mk [![0, 0, 0], ![1, 0, 0]] [1, 2] [] []))
        2 true (1 / 10) (fun _ _ => 1) (fun _ => 1)
        (fun _ => 0)).samp_channel_list = [] := by
  have main := generate_pool_ensemble
    (starting_conditions.init (geometry.mk [![0, 0, 0], ![1, 0, 0]] [1, 2] [] []))
    2 true (1 / 10) (fun _ _ => 1) (fun _ => 1) (fun _ => 0)
  refine ⟨main.1, ?_, ?_, main.2.2.2.2⟩
  · exact (main.2.2.2.1 0 (by norm_num)).1
  · exact (main.2.2.2.1 0 (by norm_num)).2.1 7 (by norm_num [starting_conditions.init, geometry.natoms])

/-! ## Characterization of NewtonEquations -/

theorem newtonStep_length (sqrt : ℚ → ℚ) (charges masses y : List ℚ) (N : ℕ)
    (d : List ℚ) (n : ℕ) :
    (newtonStep sqrt charges masses y N d n).length = d.length := by
  simp [newtonStep]

theorem newton_fold_length (sqrt : ℚ → ℚ) (charges masses y : List ℚ) (N : ℕ)
    (l : List ℕ) (init : List ℚ) :
    (l.foldl (newtonStep sqrt charges masses y N) init).length = init.length := by
  induction l generalizing init with
  | nil => rfl
  | cons a l ih => rw [List.foldl_cons, ih, newtonStep_length]

theorem newtonStep_getD_ne (sqrt : ℚ → ℚ) (charges masses y : List ℚ) (N : ℕ)
    (d : List ℚ) (n i : ℕ)
    (h1 : i ≠ 3 * n) (h2 : i ≠ 3 * n + 1) (h3 : i ≠ 3 * n + 2)
    (h4 : i ≠ 3 * N + 3 * n) (h5 : i ≠ 3 * N + 3 * n + 1) (h6 : i ≠ 3 * N + 3 * n + 2) :
    (newtonStep sqrt charges masses y N d n).getD i 0 = d.getD i 0 := by
  simp only [newtonStep]
  rw [getD_set_ne _ _ (Ne.symm h6), getD_set_ne _ _ (Ne.symm h5), getD_set_ne _ _ (Ne.symm h4),
    getD_set_ne _ _ (Ne.symm h3), getD_set_ne _ _ (Ne.symm h2), getD_set_ne _ _ (Ne.symm h1)]

theorem newtonStep_getD_vel (sqrt : ℚ → ℚ) (charges masses y : List ℚ) (N : ℕ)
    (d : List ℚ) (hd : d.length = y.length) (hN : 6 * N ≤ y.length)
    (n : ℕ) (hn : n < N) (c : Fin 3) :
    (newtonStep sqrt charges masses y N d n).getD (3 * n + (c : ℕ)) 0 =
      y.getD (3 * N + 3 * n + (c : ℕ)) 0 := by
  simp only [newtonStep]
  rw [getD_set_ne _ _ (by omega), getD_set_ne _ _ (by omega), getD_set_ne _ _ (by omega)]
  fin_cases c
  · simp only [Fin.val_zero, Nat.add_zero]
    rw [getD_set_ne _ _ (by omega), getD_set_ne _ _ (by omega)]
    exact getD_set_self _ _ (by rw [hd]; omega)
  · simp only [Fin.val_one]
    rw [getD_set_ne _ _ (by omega)]
    exact getD_set_self _ _ (by rw [List.length_set, hd]; omega)
  · simp only [Fin.val_two]
    exact getD_set_self _ _ (by rw [List.length_set, List.length_set, hd]; omega)

theorem newtonStep_getD_acc (sqrt : ℚ → ℚ) (charges masses y : List ℚ) (N : ℕ)
    (d : List ℚ) (hd : d.length = y.length) (hN : 6 * N ≤ y.length)
    (n : ℕ) (hn : n < N) (c : Fin 3) :
    (newtonStep sqrt charges masses y N d n).getD (3 * N + 3 * n + (c : ℕ)) 0 =
      coulomb_sum sqrt charges y N n c / masses.getD n 0 := by
  simp only [newtonStep]
  fin_cases c
  · simp only [Fin.val_zero, Nat.add_zero]
    rw [getD_set_ne _ _ (by omega), getD_set_ne _ _ (by omega)]
    exact getD_set_self _ _ (by simp [List.length_set, hd]; omega)
  · simp only [Fin.val_one]
    rw [getD_set_ne _ _ (by omega)]
    exact getD_set_self _ _ (by simp [List.length_set, hd]; omega)
  · simp only [Fin.val_two]
    exact getD_set_self _ _ (by simp [List.length_set, hd]; omega)

theorem newton_fold_vel (sqrt : ℚ → ℚ) (charges masses y : List ℚ) (N : ℕ)
    (hN : 6 * N ≤ y.length) :
    ∀ M, M ≤ N → ∀ n, n < M → ∀ c : Fin 3,
    ((List.range M).foldl (newtonStep sqrt charges masses y N)
        (List.replicate y.length 0)).getD (3 * n + (c : ℕ)) 0 =
      y.getD (3 * N + 3 * n + (c : ℕ)) 0 := by
  intro M
  induction M with
  | zero => intro _ n hn; omega
  | succ M ih =>
    intro hM n hn c
    rw [List.range_succ, List.foldl_append, List.foldl_cons, List.foldl_nil]
    have hlen : ((List.range M).foldl (newtonStep sqrt charges masses y N)
        (List.replicate y.length 0)).length = y.length := by
      rw [newton_fold_length]; exact List.length_replicate _ _
    rcases Nat.lt_or_ge n M with hnM | hnM
    · have hc : (c : ℕ) < 3 := c.isLt
      rw [newtonStep_getD_ne sqrt charges masses y N _ M _ (by omega) (by omega) (by omega)
        (by omega) (by omega) (by omega)]
      exact ih (by omega) n hnM c
    · have hnM : n = M := by omega
      subst hnM
      exact newtonStep_getD_vel sqrt charges masses y N _ hlen hN n (by omega) c

theorem newton_fold_acc (sqrt : ℚ → ℚ) (charges masses y : List ℚ) (N : ℕ)
    (hN : 6 * N ≤ y.length) :
    ∀ M, M ≤ N → ∀ n, n < M → ∀ c : Fin 3,
    ((List.range M).foldl (newtonStep sqrt charges masses y N)
        (List.replicate y.length 0)).getD (3 * N + 3 * n + (c : ℕ)) 0 =
      coulomb_sum sqrt charges y N n c / masses.getD n 0 := by
  intro M
  induction M with
  | zero => intro _ n hn; omega
  | succ M ih =>
    intro hM n hn c
    rw [List.range_succ, List.foldl_append, List.foldl_cons, List.foldl_nil]
    have hlen : ((List.range M).foldl (newtonStep sqrt charges masses y N)
        (List.replicate y.length 0)).length = y.length := by
      rw [newton_fold_length]; exact List.length_replicate _ _
    rcases Nat.lt_or_ge n M with hnM | hnM
    · have hc : (c : ℕ) < 3 := c.isLt
      rw [newtonStep_getD_ne sqrt charges masses y N _ M _ (by omega) (by omega) (by omega)
        (by omega) (by omega) (by omega)]
      exact ih (by omega) n hnM c
    · have hnM : n = M := by omega
      subst hnM
      exact newtonStep_getD_acc sqrt charges masses y N _ hlen hN n (by omega) c

/-- The per-atom force accumulator equals the sum of Coulomb forces over all
other atoms. -/
theorem coulomb_sum_eq_sum (sqrt : ℚ → ℚ) (charges y : List ℚ) (N n : ℕ) :
    coulomb_sum sqrt charges y N n =
      ∑ j in (Finset.range N).erase n,
        CoulombForce sqrt (pos_of y n) (pos_of y j) (charges.getD n 0) (charges.getD j 0) := by
  rw [← Finset.filter_ne', Finset.sum_filter]
  unfold coulomb_sum
  induction N with
  | zero => rfl
  | succ N ih =>
    rw [List.range_succ, List.foldl_append, List.foldl_cons, List.foldl_nil,
      Finset.sum_range_succ, ← ih]
    by_cases hN : N ≠ n
    · rw [if_pos hN, if_pos hN]
    · rw [if_neg hN, if_neg hN, add_zero]

/-- Newton's third law for the embedded Coulomb force: swapping the two
particles negates every component, because the squared separation fed to the
square root is symmetric. -/
theorem CoulombForce_antisymm (sqrt : ℚ → ℚ) (r1 r2 : Vec3) (q1 q2 : ℚ) (c : Fin 3) :
    CoulombForce sqrt r1 r2 q1 q2 c = -(CoulombForce sqrt r2 r1 q2 q1 c) := by
  have hn : normsq (fun i => r1 i - r2 i) = normsq (fun i => r2 i - r1 i) := by
    unfold normsq
    exact Finset.sum_congr rfl fun i _ => by ring
  show k * q1 * q2 * (r1 c - r2 c) * (1 / sqrt (normsq fun i => r1 i - r2 i) ^ 3) =
    -(k * q2 * q1 * (r2 c - r1 c) * (1 / sqrt (normsq fun i => r2 i - r1 i) ^ 3))
  rw [hn]
  ring

theorem sum_sum_antisymm (N : ℕ) (G : ℕ → ℕ → ℚ) (h : ∀ a b, G a b = -G b a) :
    ∑ a in Finset.range N, ∑ b in Finset.range N, G a b = 0 := by
  have e1 : ∑ a in Finset.range N, ∑ b in Finset.range N, G a b
      = -∑ a in Finset.range N, ∑ b in Finset.range N, G b a := by
    rw [← Finset.sum_neg_distrib]
    refine Finset.sum_congr rfl fun a _ => ?_
    rw [← Finset.sum_neg_distrib]
    exact Finset.sum_congr rfl fun b _ => h a b
  have e2 : ∑ a in Finset.range N, ∑ b in Finset.range N, G a b
      = ∑ b in Finset.range N, ∑ a in Finset.range N, G a b := Finset.sum_comm
  rw [e2] at e1
  linarith

/-! ## Claim C3: the equations-of-motion evaluator -/

/-- C3: for every state vector `y` of length `6·natoms` with pairwise-distinct
atom positions, the derivative returned by `NewtonEquations` has first half
equal to the velocity half of `y`, and each acceleration entry of atom `n`
equals the sum over all `j ≠ n` of `k·qₙ·qⱼ·(rₙ−rⱼ)/|rₙ−rⱼ|³` divided by
`mₙ` — the sum ranging over `(Finset.range natoms).erase n`, so with no
self-interaction term and no softening term. -/
theorem NewtonEquations_correct (sqrt : ℚ → ℚ) (charges masses y : List ℚ) (natoms : ℕ)
    (hlen : y.length = 6 * natoms)
    (_hdist : ∀ n < natoms, ∀ j < natoms, n ≠ j → pos_of y n ≠ pos_of y j) :
    (∀ i < 3 * natoms,
      (NewtonEquations sqrt charges masses y).getD i 0 = y.getD (3 * natoms + i) 0) ∧
    (∀ n < natoms, ∀ c : Fin 3,
      (NewtonEquations sqrt charges masses y).getD (3 * natoms + 3 * n + (c : ℕ)) 0 =
        (∑ j in (Finset.range natoms).erase n,
            CoulombForce sqrt (pos_of y n) (pos_of y j) (charges.getD n 0) (charges.getD j 0)) c /
          masses.getD n 0) := by
  have hN : y.length / 6 = natoms := by rw [hlen]; exact Nat.mul_div_cancel_left natoms (by norm_num)
  have hN6 : 6 * natoms ≤ y.length := by omega
  constructor
  · intro i hi
    have hc3 : i % 3 < 3 := Nat.mod_lt _ (by norm_num)
    have hdecomp : i = 3 * (i / 3) + ((⟨i % 3, hc3⟩ : Fin 3) : ℕ) := by
      simp only []
      omega
    rw [hdecomp]
    have := newton_fold_vel sqrt charges masses y natoms hN6 natoms le_rfl (i / 3) (by omega)
      ⟨i % 3, hc3⟩
    rw [← Nat.add_assoc]
    rw [show (NewtonEquations sqrt charges masses y) =
      ((List.range natoms).foldl (newtonStep sqrt charges masses y natoms)
        (List.replicate y.length 0)) by unfold NewtonEquations; rw [hN]]
    exact this
  · intro n hn c
    rw [show (NewtonEquations sqrt charges masses y) =
      ((List.range natoms).foldl (newtonStep sqrt charges masses y natoms)
        (List.replicate y.length 0)) by unfold NewtonEquations; rw [hN]]
    rw [newton_fold_acc sqrt charges masses y natoms hN6 natoms le_rfl n hn c]
    rw [coulomb_sum_eq_sum]

/-- Witness for `NewtonEquations_correct`: two unit charges of unit mass at
rest at (±1/2, 0, 0); the evaluator's first derivative entry is the first
velocity entry (zero here), checked at `i = 0`, and the acceleration of atom 0
is the single Coulomb term from atom 1 divided by its mass, checked at
component 0. -/
theorem NewtonEquations_correct_witness :
    (NewtonEquations id [1, 1] [1, 1]
        [1 / 2, 0, 0, -(1 / 2), 0, 0, 0, 0, 0, 0, 0, 0]).getD 0 0 =
      ([1 / 2, 0, 0, -(1 / 2), 0, 0, 0, 0, 0, 0, 0, 0] : List ℚ).getD 6 0 ∧
    (NewtonEquations id [1, 1] [1, 1]
        [1 / 2, 0, 0, -(1 / 2), 0, 0, 0, 0, 0, 0, 0, 0]).getD 6 0 =
      (∑ j in (Finset.range 2).erase 0,
          CoulombForce id (pos_of [1 / 2, 0, 0, -(1 / 2), 0, 0, 0, 0, 0, 0, 0, 0] 0)
            (pos_of [1 / 2, 0, 0, -(1 / 2), 0, 0, 0, 0, 0, 0, 0, 0] j)
            (([1, 1] : List ℚ).getD 0 0) (([1, 1] : List ℚ).getD j 0)) 0 /
        (([1, 1] : List ℚ).getD 0 0) := by
  have hdist : ∀ n < 2, ∀ j < 2, n ≠ j →
      pos_of [(1 : ℚ) / 2, 0, 0, -(1 / 2), 0, 0, 0, 0, 0, 0, 0, 0] n ≠
        pos_of [(1 : ℚ) / 2, 0, 0, -(1 / 2), 0, 0, 0, 0, 0, 0, 0, 0] j := by
    intro n hn j hj hne
    interval_cases n <;> interval_cases j <;> first
      | omega
      | (intro h
         have h0 := congrFun h 0
         simp [pos_of] at h0
         norm_num at h0)
  have main := NewtonEquations_correct id [1, 1] [1, 1]
    [1 / 2, 0, 0, -(1 / 2), 0, 0, 0, 0, 0, 0, 0, 0] 2 rfl hdist
  exact ⟨main.1 0 (by norm_num), main.2 0 (by norm_num) 0⟩

/-! ## Claim C5: momentum conservation -/

/-- C5: for every state with pairwise-distinct atom positions (and nonzero
masses), the accelerations returned by the equations-of-motion evaluator
satisfy `Σₙ mₙ·aₙ = 0` componentwise — the pairwise Coulomb forces are
antisymmetric, so the evaluator's net momentum derivative vanishes and total
momentum is conserved along every trajectory it drives. -/
theorem momentum_conserved (sqrt : ℚ → ℚ) (charges masses y : List ℚ) (natoms : ℕ)
    (hlen : y.length = 6 * natoms)
    (hmass : ∀ n < natoms, masses.getD n 0 ≠ 0)
    (_hdist : ∀ n < natoms, ∀ j < natoms, n ≠ j → pos_of y n ≠ pos_of y j) :
    ∀ c : Fin 3,
      ∑ n in Finset.range natoms,
        masses.getD n 0 *
          (NewtonEquations sqrt charges masses y).getD (3 * natoms + 3 * n + (c : ℕ)) 0 = 0 := by
  intro c
  have hN : y.length / 6 = natoms := by rw [hlen]; exact Nat.mul_div_cancel_left natoms (by norm_num)
  have hN6 : 6 * natoms ≤ y.length := by omega
  have hacc : ∀ n ∈ Finset.range natoms,
      masses.getD n 0 *
        (NewtonEquations sqrt charges masses y).getD (3 * natoms + 3 * n + (c : ℕ)) 0 =
      coulomb_sum sqrt charges y natoms n c := by
    intro n hn
    rw [show (NewtonEquations sqrt charges masses y) =
      ((List.range natoms).foldl (newtonStep sqrt charges masses y natoms)
        (List.replicate y.length 0)) by unfold NewtonEquations; rw [hN]]
    rw [newton_fold_acc sqrt charges masses y natoms hN6 natoms le_rfl n
      (Finset.mem_range.mp hn) c]
    rw [mul_comm, div_mul_cancel₀ _ (hmass n (Finset.mem_range.mp hn))]
  rw [Finset.sum_congr rfl hacc]
  have hterm : ∀ n ∈ Finset.range natoms,
      coulomb_sum sqrt charges y natoms n c =
      ∑ j in Finset.range natoms,
        (if j ≠ n then
          CoulombForce sqrt (pos_of y n) (pos_of y j) (charges.getD n 0) (charges.getD j 0) c
        else 0) := by
    intro n _
    rw [coulomb_sum_eq_sum, ← Finset.filter_ne', Finset.sum_apply, Finset.sum_filter]
  rw [Finset.sum_congr rfl hterm]
  refine sum_sum_antisymm natoms _ fun n j => ?_
  by_cases hne : j ≠ n
  · rw [if_pos hne, if_pos (Ne.symm hne)]
    exact CoulombForce_antisymm sqrt _ _ _ _ c
  · rw [if_neg hne, if_neg (fun hc => hne (Ne.symm hc)), neg_zero]

/-- Witness for `momentum_conserved`: the claim's two-body configuration —
equal unit masses and charges at rest at (±1/2, 0, 0) — has vanishing total
momentum derivative along the explosion axis. -/
theorem momentum_conserved_witness :
    ∑ n in Finset.range 2,
      (([1, 1] : List ℚ).getD n 0) *
        (NewtonEquations id [1, 1] [1, 1]
            [1 / 2, 0, 0, -(1 / 2), 0, 0, 0, 0, 0, 0, 0, 0]).getD (3 * 2 + 3 * n + 0) 0 = 0 := by
  have hmass : ∀ n < 2, ([1, 1] : List ℚ).getD n 0 ≠ 0 := by
    intro n hn; interval_cases n <;> norm_num
  have hdist : ∀ n < 2, ∀ j < 2, n ≠ j →
      pos_of [(1 : ℚ) / 2, 0, 0, -(1 / 2), 0, 0, 0, 0, 0, 0, 0, 0] n ≠
        pos_of [(1 : ℚ) / 2, 0, 0, -(1 / 2), 0, 0, 0, 0, 0, 0, 0, 0] j := by
    intro n hn j hj hne
    interval_cases n <;> interval_cases j <;> first
      | omega
      | (intro h
         have h0 := congrFun h 0
         simp [pos_of] at h0
         norm_num at h0)
  exact momentum_conserved id [1, 1] [1, 1]
    [1 / 2, 0, 0, -(1 / 2), 0, 0, 0, 0, 0, 0, 0, 0] 2 rfl hmass hdist 0

/-! ## Timebins: linspace facts and claim C6 -/

/-- Every sample of `linspace a b n` lies in `[a, b]` when `a ≤ b`. -/
theorem linspace_mem_bounds (a b : ℚ) (n : ℕ) (hab : a ≤ b) :
    ∀ x ∈ linspace a b n, a ≤ x ∧ x ≤ b := by
  intro x hx
  unfold linspace at hx
  obtain ⟨i, hi2, he⟩ := List.mem_map.mp hx
  have hi := List.mem_range.mp hi2
  rw [← he]
  show a ≤ a + (i : ℚ) * (b - a) / ((n : ℚ) - 1) ∧ a + (i : ℚ) * (b - a) / ((n : ℚ) - 1) ≤ b
  rcases Nat.lt_or_ge n 2 with hn | hn
  · have hi0 : i = 0 := by omega
    subst hi0
    simp only [Nat.cast_zero, zero_mul, zero_div, add_zero]
    exact ⟨le_rfl, hab⟩
  · have hpos : (0 : ℚ) < (n : ℚ) - 1 := by
      have : (2 : ℚ) ≤ (n : ℚ) := by exact_mod_cast hn
      linarith
    have hstep : (0 : ℚ) ≤ (b - a) / ((n : ℚ) - 1) :=
      div_nonneg (by linarith) (le_of_lt hpos)
    have hcast : (i : ℚ) ≤ (n : ℚ) - 1 := by
      have : (i : ℚ) + 1 ≤ (n : ℚ) := by exact_mod_cast hi
      linarith
    constructor
    · have : (0 : ℚ) ≤ (i : ℚ) * ((b - a) / ((n : ℚ) - 1)) :=
        mul_nonneg (Nat.cast_nonneg i) hstep
      rw [mul_div_assoc]
      linarith
    · have key : (i : ℚ) * (b - a) ≤ ((n : ℚ) - 1) * (b - a) :=
        mul_le_mul_of_nonneg_right hcast (by linarith)
      have hdiv : (i : ℚ) * (b - a) / ((n : ℚ) - 1) ≤ ((n : ℚ) - 1) * (b - a) / ((n : ℚ) - 1) :=
        (div_le_div_iff_of_pos_right hpos).mpr key
      rw [mul_div_assoc, mul_div_cancel_left₀ _ (ne_of_gt hpos)] at hdiv
      rw [mul_div_assoc]
      linarith

/-- An ascending range yields a non-decreasing linspace. -/
theorem linspace_sorted (a b : ℚ) (n : ℕ) (hab : a ≤ b) :
    List.Sorted (· ≤ ·) (linspace a b n) := by
  unfold linspace
  rw [List.Sorted, List.pairwise_map]
  rcases Nat.lt_or_ge n 2 with hn | hn
  · have h01 : n = 0 ∨ n = 1 := by omega
    rcases h01 with rfl | rfl
    · simp
    · rw [show List.range 1 = [0] from rfl]
      exact List.pairwise_singleton _ _
  · have hpos : (0 : ℚ) < (n : ℚ) - 1 := by
      have : (2 : ℚ) ≤ (n : ℚ) := by exact_mod_cast hn
      linarith
    have hstep : (0 : ℚ) ≤ (b - a) / ((n : ℚ) - 1) :=
      div_nonneg (by linarith) (le_of_lt hpos)
    refine (List.pairwise_lt_range n).imp ?_
    intro i j hij
    have hcast : (i : ℚ) ≤ (j : ℚ) := by exact_mod_cast le_of_lt hij
    have := mul_le_mul_of_nonneg_right hcast hstep
    rw [mul_div_assoc, mul_div_assoc]
    linarith

/-- Along a chain of ranges, each with ascending endpoints, every later range
starts no earlier than the first range ends. -/
theorem chain_ranges_le (p : (ℚ × ℚ) × ℕ) (ps : List ((ℚ × ℚ) × ℕ))
    (hv : ∀ q ∈ ps, q.1.1 ≤ q.1.2)
    (hc : List.Chain' (fun p q => p.1.2 ≤ q.1.1) (p :: ps)) :
    ∀ q ∈ ps, p.1.2 ≤ q.1.1 := by
  induction ps generalizing p with
  | nil => intro q hq; cases hq
  | cons q ps ih =>
    have h1 : p.1.2 ≤ q.1.1 := (List.chain'_cons.mp hc).1
    intro r hr
    rcases List.mem_cons.mp hr with rfl | hr
    · exact h1
    · have h2 := ih q (fun x hx => hv x (List.mem_cons_of_mem _ hx)) (List.chain'_cons.mp hc).2 r hr
      have h3 : q.1.1 ≤ q.1.2 := hv q (List.mem_cons_self _ _)
      linarith

/-- The concatenation of the per-range linspaces is non-decreasing when every
range ascends and consecutive ranges are chained. -/
theorem sorted_flatten_linspace : ∀ ps : List ((ℚ × ℚ) × ℕ),
    (∀ p ∈ ps, p.1.1 ≤ p.1.2) →
    List.Chain' (fun p q => p.1.2 ≤ q.1.1) ps →
    List.Sorted (· ≤ ·) ((ps.map (fun p => linspace p.1.1 p.1.2 p.2)).flatten) := by
  intro ps
  induction ps with
  | nil => intro _ _; simp
  | cons p ps ih =>
    intro hv hc
    rw [List.map_cons, List.flatten_cons, List.Sorted, List.pairwise_append]
    refine ⟨linspace_sorted _ _ _ (hv p (List.mem_cons_self _ _)), ?_, ?_⟩
    · exact ih (fun q hq => hv q (List.mem_cons_of_mem _ hq)) hc.tail
    · intro x hx yy hyy
      obtain ⟨l, hl, hyl⟩ := List.mem_flatten.mp hyy
      obtain ⟨q, hq, rfl⟩ := List.mem_map.mp hl
      have hxb := (linspace_mem_bounds _ _ _ (hv p (List.mem_cons_self _ _)) x hx).2
      have hyb := (linspace_mem_bounds _ _ _ (hv q (List.mem_cons_of_mem _ hq)) yy hyl).1
      have hpq := chain_ranges_le p ps (fun r hr => hv r (List.mem_cons_of_mem _ hr)) hc q hq
      linarith

/-- C6 counterexample: the claim asserts the stored sequence is non-decreasing
for every list of time ranges, but a single descending range already violates
it: `make_timebins [(1,0)] [2]` stores `[1, 0]`. -/
theorem make_timebins_not_sorted :
    ¬ List.Sorted (· ≤ ·) (make_timebins [((1 : ℚ), 0)] [2]).timebins := by
  have h : (make_timebins [((1 : ℚ), 0)] [2]).timebins = [1, 0] := by
    norm_num [make_timebins, set_timebins, linspace, List.range_succ]
  rw [h]
  norm_num [List.Sorted, List.pairwise_cons]

/-- C6 (amended): `make_timebins` stores the concatenation of the per-range
linspaces together with its minimum, maximum and total count, and — provided
each range ascends (`t1 ≤ t2`) and each successive range starts no earlier
than the previous one ends, as in the specification's example — the stored
sequence is non-decreasing; in particular `make_timebins [(0,1),(1,5)] [3,5]`
yields a non-decreasing sequence of 8 samples with minimum 0 and maximum 5. -/
theorem make_timebins_correct (trl : List (ℚ × ℚ)) (nsl : List ℕ)
    (hv : ∀ p ∈ trl.zip nsl, p.1.1 ≤ p.1.2)
    (hchain : List.Chain' (fun p q => p.1.2 ≤ q.1.1) (trl.zip nsl)) :
    ((make_timebins trl nsl).timebins =
        ((trl.zip nsl).map (fun p => linspace p.1.1 p.1.2 p.2)).flatten ∧
      (make_timebins trl nsl).n_t_steps = (make_timebins trl nsl).timebins.length ∧
      (make_timebins trl nsl).tmin = (make_timebins trl nsl).timebins.min? ∧
      (make_timebins trl nsl).tmax = (make_timebins trl nsl).timebins.max? ∧
      List.Sorted (· ≤ ·) (make_timebins trl nsl).timebins) ∧
    ((make_timebins [((0 : ℚ), 1), (1, 5)] [3, 5]).timebins.length = 8 ∧
      (make_timebins [((0 : ℚ), 1), (1, 5)] [3, 5]).tmin = some 0 ∧
      (make_timebins [((0 : ℚ), 1), (1, 5)] [3, 5]).tmax = some 5 ∧
      List.Sorted (· ≤ ·) (make_timebins [((0 : ℚ), 1), (1, 5)] [3, 5]).timebins) := by
  have htb : (make_timebins [((0 : ℚ), 1), (1, 5)] [3, 5]).timebins =
      [0, 1 / 2, 1, 1, 2, 3, 4, 5] := by
    norm_num [make_timebins, set_timebins, linspace, List.range_succ]
  have hmin : (make_timebins [((0 : ℚ), 1), (1, 5)] [3, 5]).tmin =
      (make_timebins [((0 : ℚ), 1), (1, 5)] [3, 5]).timebins.min? := rfl
  have hmax : (make_timebins [((0 : ℚ), 1), (1, 5)] [3, 5]).tmax =
      (make_timebins [((0 : ℚ), 1), (1, 5)] [3, 5]).timebins.max? := rfl
  refine ⟨⟨rfl, rfl, rfl, rfl, sorted_flatten_linspace _ hv hchain⟩, ?_, ?_, ?_, ?_⟩
  · rw [htb]
    rfl
  · rw [hmin, htb]
    simp [List.min?]
  · rw [hmax, htb]
    simp [List.max?]
    norm_num
  · rw [htb]
    norm_num [List.Sorted, List.pairwise_cons]

/-- Witness for `make_timebins_correct`, whose hypotheses are discharged at
the specification's own example input `[(0,1),(1,5)]`, `[3,5]`. -/
theorem make_timebins_correct_witness :
    List.Sorted (· ≤ ·) (make_timebins [((0 : ℚ), 1), (1, 5)] [3, 5]).timebins ∧
      (make_timebins [((0 : ℚ), 1), (1, 5)] [3, 5]).timebins.length = 8 ∧
      (make_timebins [((0 : ℚ), 1), (1, 5)] [3, 5]).tmin = some 0 ∧
      (make_timebins [((0 : ℚ), 1), (1, 5)] [3, 5]).tmax = some 5 := by
  have hv : ∀ p ∈ ([((0 : ℚ), 1), (1, 5)].zip [3, 5]), p.1.1 ≤ p.1.2 := by
    intro p hp
    simp only [List.zip_cons_cons, List.zip_nil_right, List.mem_cons] at hp
    rcases hp with rfl | hp
    · norm_num
    · rcases hp with rfl | hp
      · norm_num
      · cases hp
  have hchain : List.Chain' (fun p q => p.1.2 ≤ q.1.1) ([((0 : ℚ), 1), (1, 5)].zip [3, 5]) := by
    simp only [List.zip_cons_cons, List.zip_nil_right]
    exact List.chain'_cons.mpr ⟨by norm_num, List.chain'_singleton _⟩
  have main := make_timebins_correct [((0 : ℚ), 1), (1, 5)] [3, 5] hv hchain
  exact ⟨main.1.2.2.2.2, main.2.1, main.2.2.1, main.2.2.2.1⟩

/-! ## Rotation matrices: claim C8 -/

theorem getD_map_of_lt {α β : Type} (f : α → β) (rs : List α) (n : ℕ) (h : n < rs.length)
    (d : α) (d2 : β) : (rs.map f).getD n d2 = f (rs.getD n d) := by
  rw [List.getD_eq_getElem?_getD, List.getElem?_map, List.getD_eq_getElem?_getD,
    List.getElem?_eq_getElem h]
  rfl

theorem outer_mul_outer (V : Fin 3 → ℚ) :
    (Matrix.of fun i j => V i * V j) * (Matrix.of fun i j => V i * V j) =
      (V 0 ^ 2 + V 1 ^ 2 + V 2 ^ 2) • Matrix.of (fun i j => V i * V j) := by
  ext i j
  fin_cases i <;> fin_cases j <;>
    (simp [Matrix.mul_apply, Fin.sum_univ_three, Matrix.smul_apply]; ring)

theorem outer_transpose (V : Fin 3 → ℚ) :
    (Matrix.of fun i j => V i * V j).transpose = Matrix.of fun i j => V i * V j := by
  ext i j
  simp [Matrix.transpose_apply]
  ring

/-- The Householder factor `V·Vᵀ − I` squares to the identity whenever
`‖V‖² = 2`, and its determinant is 1. -/
theorem householder_sq (V : Fin 3 → ℚ) (hV : V 0 ^ 2 + V 1 ^ 2 + V 2 ^ 2 = 2) :
    ((Matrix.of fun i j => V i * V j) - 1) * ((Matrix.of fun i j => V i * V j) - 1) = 1 := by
  have expand : ((Matrix.of fun i j => V i * V j) - 1) * ((Matrix.of fun i j => V i * V j) - 1) =
      (Matrix.of fun i j => V i * V j) * (Matrix.of fun i j => V i * V j) -
        (Matrix.of fun i j => V i * V j) - (Matrix.of fun i j => V i * V j) + 1 := by
    noncomm_ring
  rw [expand, outer_mul_outer, hV, two_smul]
  abel

theorem householder_det (V : Fin 3 → ℚ) (hV : V 0 ^ 2 + V 1 ^ 2 + V 2 ^ 2 = 2) :
    ((Matrix.of fun i j => V i * V j) - 1).det = 1 := by
  rw [Matrix.det_fin_three]
  simp [Matrix.sub_apply, Matrix.one_apply]
  linear_combination hV

theorem rotZ_mul_transpose (st ct : ℚ) (hsc : st ^ 2 + ct ^ 2 = 1) :
    (Matrix.of ![![ct, st, 0], ![-st, ct, 0], ![0, 0, 1]]) *
      (Matrix.of ![![ct, st, 0], ![-st, ct, 0], ![0, 0, 1]]).transpose = 1 := by
  have ht : (Matrix.of ![![ct, st, 0], ![-st, ct, 0], ![0, 0, 1]]).transpose =
      Matrix.of ![![ct, -st, 0], ![st, ct, 0], ![0, 0, 1]] := by
    ext i j
    fin_cases i <;> fin_cases j <;> rfl
  rw [ht]
  ext i j
  fin_cases i <;> fin_cases j <;>
    (simp [Matrix.mul_apply, Fin.sum_univ_three, Matrix.one_apply] <;>
      first | linear_combination hsc | ring)

theorem rotZ_det (st ct : ℚ) (hsc : st ^ 2 + ct ^ 2 = 1) :
    (Matrix.of ![![ct, st, 0], ![-st, ct, 0], ![0, 0, 1]]).det = 1 := by
  rw [Matrix.det_fin_three]
  simp
  linear_combination hsc

/-- The core algebraic fact behind C8: the product of the Householder factor
(for `‖V‖² = 2`) and the z-rotation block (for `st² + ct² = 1`) is orthogonal
with determinant 1. -/
theorem householder_rotation_orthogonal (V : Fin 3 → ℚ) (st ct : ℚ)
    (hV : V 0 ^ 2 + V 1 ^ 2 + V 2 ^ 2 = 2) (hsc : st ^ 2 + ct ^ 2 = 1) :
    ((((Matrix.of fun i j => V i * V j) - 1) *
        Matrix.of ![![ct, st, 0], ![-st, ct, 0], ![0, 0, 1]]) *
      (((Matrix.of fun i j => V i * V j) - 1) *
        Matrix.of ![![ct, st, 0], ![-st, ct, 0], ![0, 0, 1]]).transpose = 1) ∧
    (((Matrix.of fun i j => V i * V j) - 1) *
        Matrix.of ![![ct, st, 0], ![-st, ct, 0], ![0, 0, 1]]).det = 1 := by
  have hHt : ((Matrix.of fun i j => V i * V j) - 1).transpose =
      (Matrix.of fun i j => V i * V j) - 1 := by
    rw [Matrix.transpose_sub, Matrix.transpose_one, outer_transpose]
  constructor
  · rw [Matrix.transpose_mul, mul_assoc, ← mul_assoc (Matrix.of ![![ct, st, 0], ![-st, ct, 0],
      ![0, 0, 1]]), rotZ_mul_transpose st ct hsc, one_mul, hHt, householder_sq V hV]
  · rw [Matrix.det_mul, householder_det V hV, rotZ_det st ct hsc, one_mul]

/-- An orthogonal matrix preserves the squared norm under `mulVec`. -/
theorem mulVec_normsq_preserved (M : Matrix (Fin 3) (Fin 3) ℚ)
    (hM : M.transpose * M = 1) (x : Vec3) : normsq (M.mulVec x) = normsq x := by
  have h1 : normsq (M.mulVec x) = Matrix.dotProduct (M.mulVec x) (M.mulVec x) := by
    unfold normsq Matrix.dotProduct
    exact Finset.sum_congr rfl fun i _ => by ring
  have h2 : Matrix.dotProduct (M.mulVec x) (M.mulVec x) = Matrix.dotProduct x x := by
    rw [Matrix.dotProduct_mulVec, ← Matrix.mulVec_transpose, Matrix.mulVec_mulVec, hM,
      Matrix.one_mulVec]
  have h3 : normsq x = Matrix.dotProduct x x := by
    unfold normsq Matrix.dotProduct
    exact Finset.sum_congr rfl fun i _ => by ring
  rw [h1, h2, h3]

/-- C8: every matrix produced by `RandRotationMatrix` with deflection 1 — for
any three input random numbers in `[0,1]`, and any implementations of
`sin`, `cos`, `sqrt`, `pi` satisfying the Pythagorean identity at the two
derived angles and the square-root identity at the two derived radicands — is
orthogonal with determinant 1; `random_rotation` applies that one matrix
identically to every position vector of the list; hence every pairwise
inter-atomic squared distance of a sampled configuration is unchanged by the
rotation step (so the distances themselves, square roots of equal quantities,
are unchanged). -/
theorem random_rotation_preserves_distances (sin cos sqrt : ℚ → ℚ) (pi : ℚ)
    (theta0 phi0 z0 : ℚ)
    (_h0 : 0 ≤ theta0 ∧ theta0 ≤ 1) (_h1 : 0 ≤ phi0 ∧ phi0 ≤ 1) (_h2 : 0 ≤ z0 ∧ z0 ≤ 1)
    (hth : sin (theta0 * 2 * 1 * pi) ^ 2 + cos (theta0 * 2 * 1 * pi) ^ 2 = 1)
    (hph : sin (phi0 * 2 * pi) ^ 2 + cos (phi0 * 2 * pi) ^ 2 = 1)
    (hz : sqrt (z0 * 2 * 1) ^ 2 = z0 * 2 * 1)
    (hz2 : sqrt (2 - z0 * 2 * 1) ^ 2 = 2 - z0 * 2 * 1) :
    (RandRotationMatrix sin cos sqrt pi 1 theta0 phi0 z0 *
        (RandRotationMatrix sin cos sqrt pi 1 theta0 phi0 z0).transpose = 1) ∧
    ((RandRotationMatrix sin cos sqrt pi 1 theta0 phi0 z0).det = 1) ∧
    (∀ (rs : List Vec3) (n : ℕ), n < rs.length →
      (random_rotation (RandRotationMatrix sin cos sqrt pi 1 theta0 phi0 z0) rs).getD n 0 =
        (RandRotationMatrix sin cos sqrt pi 1 theta0 phi0 z0).mulVec (rs.getD n 0)) ∧
    (∀ (rs : List Vec3) (m n : ℕ), m < rs.length → n < rs.length →
      normsq (fun c =>
          ((random_rotation (RandRotationMatrix sin cos sqrt pi 1 theta0 phi0 z0) rs).getD m 0) c -
          ((random_rotation (RandRotationMatrix sin cos sqrt pi 1 theta0 phi0 z0) rs).getD n 0) c) =
        normsq (fun c => (rs.getD m 0) c - (rs.getD n 0) c)) := by
  have hVnorm : (![sin (phi0 * 2 * pi) * sqrt (z0 * 2 * 1), cos (phi0 * 2 * pi) * sqrt (z0 * 2 * 1),
      sqrt (2 - z0 * 2 * 1)] : Fin 3 → ℚ) 0 ^ 2 +
      (![sin (phi0 * 2 * pi) * sqrt (z0 * 2 * 1), cos (phi0 * 2 * pi) * sqrt (z0 * 2 * 1),
      sqrt (2 - z0 * 2 * 1)] : Fin 3 → ℚ) 1 ^ 2 +
      (![sin (phi0 * 2 * pi) * sqrt (z0 * 2 * 1), cos (phi0 * 2 * pi) * sqrt (z0 * 2 * 1),
      sqrt (2 - z0 * 2 * 1)] : Fin 3 → ℚ) 2 ^ 2 = 2 := by
    show (sin (phi0 * 2 * pi) * sqrt (z0 * 2 * 1)) ^ 2 +
      (cos (phi0 * 2 * pi) * sqrt (z0 * 2 * 1)) ^ 2 + sqrt (2 - z0 * 2 * 1) ^ 2 = 2
    linear_combination sqrt (z0 * 2 * 1) ^ 2 * hph + hz + hz2
  have main := householder_rotation_orthogonal
    (![sin (phi0 * 2 * pi) * sqrt (z0 * 2 * 1), cos (phi0 * 2 * pi) * sqrt (z0 * 2 * 1),
      sqrt (2 - z0 * 2 * 1)])
    (sin (theta0 * 2 * 1 * pi)) (cos (theta0 * 2 * 1 * pi)) hVnorm hth
  have hMdef : RandRotationMatrix sin cos sqrt pi 1 theta0 phi0 z0 =
      ((Matrix.of fun i j =>
          (![sin (phi0 * 2 * pi) * sqrt (z0 * 2 * 1), cos (phi0 * 2 * pi) * sqrt (z0 * 2 * 1),
            sqrt (2 - z0 * 2 * 1)] : Fin 3 → ℚ) i *
          (![sin (phi0 * 2 * pi) * sqrt (z0 * 2 * 1), cos (phi0 * 2 * pi) * sqrt (z0 * 2 * 1),
            sqrt (2 - z0 * 2 * 1)] : Fin 3 → ℚ) j) - 1) *
        Matrix.of ![![cos (theta0 * 2 * 1 * pi), sin (theta0 * 2 * 1 * pi), 0],
          ![-sin (theta0 * 2 * 1 * pi), cos (theta0 * 2 * 1 * pi), 0], ![0, 0, 1]] := rfl
  have hrot : ∀ (rs : List Vec3) (n : ℕ), n < rs.length →
      (random_rotation (RandRotationMatrix sin cos sqrt pi 1 theta0 phi0 z0) rs).getD n 0 =
        (RandRotationMatrix sin cos sqrt pi 1 theta0 phi0 z0).mulVec (rs.getD n 0) := by
    intro rs n hn
    unfold random_rotation
    exact getD_map_of_lt _ rs n hn 0 0
  have horth : RandRotationMatrix sin cos sqrt pi 1 theta0 phi0 z0 *
      (RandRotationMatrix sin cos sqrt pi 1 theta0 phi0 z0).transpose = 1 := by
    rw [hMdef]
    exact main.1
  refine ⟨horth, ?_, hrot, ?_⟩
  · rw [hMdef]
    exact main.2
  · intro rs m n hm hn
    rw [hrot rs m hm, hrot rs n hn]
    show normsq ((RandRotationMatrix sin cos sqrt pi 1 theta0 phi0 z0).mulVec (rs.getD m 0) -
        (RandRotationMatrix sin cos sqrt pi 1 theta0 phi0 z0).mulVec (rs.getD n 0)) =
      normsq (rs.getD m 0 - rs.getD n 0)
    rw [← Matrix.mulVec_sub]
    exact mulVec_normsq_preserved _ (Matrix.mul_eq_one_comm.mp horth) _

/-- Witness for `random_rotation_preserves_distances`: the stand-ins
`sin = (fun _ => 0)`, `cos = (fun _ => 1)`, `sqrt = (fun _ => 1)`, `pi = 0`
satisfy the analytic hypotheses at the random inputs `(1/2, 1/2, 1/2)`, and
the resulting matrix is orthogonal with determinant 1 and preserves the
squared separation of two concrete atoms. -/
theorem random_rotation_preserves_distances_witness :
    (RandRotationMatrix (fun _ => 0) (fun _ => 1) (fun _ => 1) 0 1 (1 / 2) (1 / 2) (1 / 2) *
        (RandRotationMatrix (fun _ => 0) (fun _ => 1) (fun _ => 1) 0 1 (1 / 2) (1 / 2)
          (1 / 2)).transpose = 1) ∧
    ((RandRotationMatrix (fun _ => 0) (fun _ => 1) (fun _ => 1) 0 1 (1 / 2) (1 / 2)
        (1 / 2)).det = 1) ∧
    normsq (fun c =>
        ((random_rotation (RandRotationMatrix (fun _ => 0) (fun _ => 1) (fun _ => 1) 0 1
            (1 / 2) (1 / 2) (1 / 2)) [![1, 0, 0], ![0, 0, 0]]).getD 0 0) c -
        ((random_rotation (RandRotationMatrix (fun _ => 0) (fun _ => 1) (fun _ => 1) 0 1
            (1 / 2) (1 / 2) (1 / 2)) [![1, 0, 0], ![0, 0, 0]]).getD 1 0) c) =
      normsq (fun c => ((![1, 0, 0] : Vec3)) c - ((![0, 0, 0] : Vec3)) c) := by
  have main := random_rotation_preserves_distances (fun _ => 0) (fun _ => 1) (fun _ => 1) 0
    (1 / 2) (1 / 2) (1 / 2) (by norm_num) (by norm_num) (by norm_num)
    (by norm_num) (by norm_num) (by norm_num) (by norm_num)
  exact ⟨main.1, main.2.1,
    main.2.2.2 [![1, 0, 0], ![0, 0, 0]] 0 1 (by norm_num) (by norm_num)⟩

end PyCESim
